import Mathlib

/-!
Verification of the pack-solver core of `re-partners-assignment`.

Shallow embedding of:
  * `internal/domain/entities.go`   — validation, `Solution`, `NewSolution`
  * `internal/usecase/solver.go`    — `DPSolver.Solve`, `normalizeSizes`,
                                      `calculateMaxSum`, `reconstructSolution`
  * `internal/infra/redis/cache.go` — `CachedSolver.Solve`, `generateCacheKey`

Modelling conventions:
  * Go `int` is modelled as `Int`.  All quantities handled by the solver stay
    well below `2^31` (sums are capped at `10_000_000`, pack counts are bounded
    by sums), so the Go `int`/`int32` arithmetic never overflows and plain
    `Int` is an exact model.
  * The Go `map[int]int` breakdown is modelled as an association list
    `List (Int × Int)`; `breakdown[size]++` becomes `bumpKey`.
  * The DP slice `dp []dpState` is modelled extensionally as a total function
    `Int → DpState`; the Go code only ever indexes it inside `[0, maxSum]`.
  * `context.Context` cancellation is not modelled: all claims below are about
    runs without cancellation, and the periodic `ctx.Done()` polls are the
    only place the context is read.
  * Error values carry the static message of the corresponding Go error; the
    formatted `%d`/`%v` payloads are dropped, which no claim depends on.
-/

namespace PackSolver

/-- Solver errors. Go distinguishes wrapped `ErrInvalidInput` and
`ErrNoSolution`; the formatted payloads are dropped. -/
inductive SolverError where
  | invalidInput : String → SolverError
  | noSolution : String → SolverError
deriving DecidableEq, Repr

/-- A solution, mirroring `domain.Solution`: a breakdown (pack size → count,
modelled as an association list), total pack count, overage and amount. -/
structure Solution where
  breakdown : List (Int × Int)
  packs : Int
  overage : Int
  amount : Int
deriving DecidableEq, Repr

/-- Total number of packs of a breakdown: the sum of its counts, as computed
by the range-loop in `domain.NewSolution`. -/
def totalPacks (b : List (Int × Int)) : Int :=
  b.foldl (fun acc p => acc + p.2) 0

/-- Total item count of a breakdown: the sum of size×count, as computed by the
range-loop in `domain.NewSolution`. -/
def totalItems (b : List (Int × Int)) : Int :=
  b.foldl (fun acc p => acc + p.1 * p.2) 0

/-- Embeds `domain.NewSolution`: derive `Packs` and `Overage` from the
breakdown; `Overage` is clamped at 0 when the total is below `amount`. -/
def NewSolution (breakdown : List (Int × Int)) (amount : Int) : Solution :=
  let tp := totalPacks breakdown
  let ti := totalItems breakdown
  { breakdown := breakdown
    packs := tp
    overage := if ti > amount then ti - amount else 0
    amount := amount }

/-- Loop body of `domain.ValidatePackSizes`: walk the raw list in order,
tracking the `seen` set, and return the first error found. -/
def validatePackSizesLoop (seen : List Int) : List Int → Option SolverError
  | [] => none
  | size :: rest =>
    if size ≤ 0 then some (.invalidInput "size must be greater than 0")
    else if size > 1000000 then some (.invalidInput "size must not exceed 1000000")
    else if size ∈ seen then some (.invalidInput "duplicate size")
    else validatePackSizesLoop (size :: seen) rest

/-- Embeds `domain.ValidatePackSizes`: non-empty, and each size positive,
at most 1,000,000 and not seen before. -/
def ValidatePackSizes (sizes : List Int) : Option SolverError :=
  if sizes = [] then some (.invalidInput "sizes cannot be empty")
  else validatePackSizesLoop [] sizes

/-- Embeds `domain.ValidateAmount`: positive and at most 1,000,000,000. -/
def ValidateAmount (amount : Int) : Option SolverError :=
  if amount ≤ 0 then some (.invalidInput "amount must be greater than 0")
  else if amount > 1000000000 then some (.invalidInput "amount must not exceed 1000000000")
  else none

/-- Embeds `domain.ValidateSolverInput`: sizes first, then amount. -/
def ValidateSolverInput (sizes : List Int) (amount : Int) : Option SolverError :=
  match ValidatePackSizes sizes with
  | some e => some e
  | none => ValidateAmount amount

/-- Embeds `usecase.normalizeSizes`: drop non-positive entries, deduplicate
(the Go code inserts into a `map[int]bool`), and sort ascending. -/
def normalizeSizes (sizes : List Int) : List Int :=
  if sizes = [] then []
  else List.insertionSort (· ≤ ·) ((sizes.filter (fun s => 0 < s)).dedup)

/-- Embeds `usecase.calculateMaxSum`: `amount + (minSize − 1)` capped at the
fixed ceiling of 10,000,000 cells (`sizes` is the sorted normalized list, so
`sizes[0]` is the minimum). -/
def calculateMaxSum (amount : Int) (sizes : List Int) : Int :=
  match sizes with
  | [] => amount
  | minSize :: _ =>
    let maxOverage := minSize - 1
    let maxSum := amount + maxOverage
    if maxSum > 10000000 then 10000000 else maxSum

/-- DP cell, mirroring `usecase.dpState` (`int32` fields; the values stay far
below `2^31`, see the header): minimum pack count to reach this sum, and the
index of the size that last reached it (−1 when unreachable / for sum 0). -/
structure DpState where
  packs : Int
  parent : Int
deriving DecidableEq, Repr

/-- The state threaded through `DPSolver.Solve`'s DP loops: the table plus the
best terminal sum and its pack count (−1 while unset). -/
structure LoopState where
  dp : Int → DpState
  bestSum : Int
  bestPacks : Int

/-- Initial table: `dp[0] = {0, −1}`, everything else `{−1, −1}`. -/
def initDp : Int → DpState :=
  fun i => if i = 0 then ⟨0, -1⟩ else ⟨-1, -1⟩

/-- Point update of the extensionally modelled DP table. -/
def writeDp (dp : Int → DpState) (t : Int) (v : DpState) : Int → DpState :=
  fun u => if u = t then v else dp u

/-- The `newSum ≥ amount` block of the inner loop of `DPSolver.Solve`: adopt
the candidate terminal `(newSum, newPacks)` when it is the first one, or when
it is strictly lexicographically better (smaller overage, then fewer packs)
than the current best. -/
def bestUpdate (amount newSum newPacks : Int) (st : LoopState) : LoopState :=
  if st.bestSum = -1 then { st with bestSum := newSum, bestPacks := newPacks }
  else
    if newSum - amount < st.bestSum - amount ∨
        (newSum - amount = st.bestSum - amount ∧ newPacks < st.bestPacks) then
      { st with bestSum := newSum, bestPacks := newPacks }
    else st

/-- Body of the inner `for idx, size := range normalizedSizes` loop of
`DPSolver.Solve`: try extending `sum` by one pack of `size` (index `idx`),
first relaxing `dp[newSum]`, then updating the best terminal candidate. -/
def innerStep (maxSum amount sum : Int) (st : LoopState) (idx : Nat) (size : Int) :
    LoopState :=
  let newSum := sum + size
  if newSum > maxSum then st
  else
    let newPacks := (st.dp sum).packs + 1
    let st1 :=
      if (st.dp newSum).packs = -1 ∨ newPacks < (st.dp newSum).packs then
        { st with dp := writeDp st.dp newSum ⟨newPacks, (idx : Int)⟩ }
      else st
    if newSum ≥ amount then bestUpdate amount newSum newPacks st1
    else st1

/-- The inner loop itself: fold `innerStep` over the remaining sizes, keeping
the running index (`rest` is a suffix of the normalized sizes). -/
def innerLoop (maxSum amount sum : Int) (idx : Nat) (rest : List Int)
    (st : LoopState) : LoopState :=
  match rest with
  | [] => st
  | size :: rest' => innerLoop maxSum amount sum (idx + 1) rest' (innerStep maxSum amount sum st idx size)

/-- One iteration of the outer `for sum := 0; sum <= maxSum; sum++` loop:
skip unreachable sums, otherwise run the inner loop over all sizes. -/
def sumStep (sizes : List Int) (maxSum amount sum : Int) (st : LoopState) : LoopState :=
  if (st.dp sum).packs = -1 then st
  else innerLoop maxSum amount sum 0 sizes st

/-- The outer DP loop `for sum := 0; sum <= maxSum; sum++`, written with an
explicit iteration count so that it is structural (and kernel-reduces): `n`
iterations remain, `sum` is the current sum (the periodic cancellation poll of
the Go loop is not modelled). -/
def dpLoop (sizes : List Int) (maxSum amount : Int) : Nat → Int → LoopState → LoopState
  | 0, _, st => st
  | n + 1, sum, st => dpLoop sizes maxSum amount n (sum + 1) (sumStep sizes maxSum amount sum st)

/-- Run the whole DP phase of `DPSolver.Solve` from the initial table: the Go
loop runs `sum` over `0, 1, …, maxSum`, i.e. exactly `maxSum + 1` times. -/
def runDP (sizes : List Int) (maxSum amount : Int) : LoopState :=
  dpLoop sizes maxSum amount (maxSum + 1).toNat 0 { dp := initDp, bestSum := -1, bestPacks := -1 }

/-- Embeds `breakdown[size]++` on the Go map: bump the count of `k`,
inserting it with count 1 when absent. -/
def bumpKey (b : List (Int × Int)) (k : Int) : List (Int × Int) :=
  match b with
  | [] => [(k, 1)]
  | (k', v) :: rest => if k' = k then (k', v + 1) :: rest else (k', v) :: bumpKey rest k

/-- Loop of `usecase.reconstructSolution` (`for currentSum > 0`): follow
recorded parents downwards, counting one pack per step.  The loop is written
with a fuel parameter to make it structural: in tables produced by the solver
every followed step subtracts a size ≥ 1 from `currentSum`, so starting the
fuel at `targetSum.toNat + 1` never runs out (the Go loop would diverge
exactly in the cases where the fuel would be exhausted). -/
def reconstructLoop (dp : Int → DpState) (sizes : List Int) :
    Nat → Int → List (Int × Int) → List (Int × Int)
  | 0, _, breakdown => breakdown
  | fuel + 1, currentSum, breakdown =>
    if currentSum ≤ 0 then breakdown
    else if (dp currentSum).parent = -1 then breakdown
    else
      let size := sizes.getD (dp currentSum).parent.toNat 0
      reconstructLoop dp sizes fuel (currentSum - size) (bumpKey breakdown size)

/-- Embeds `usecase.reconstructSolution`. -/
def reconstructSolution (dp : Int → DpState) (sizes : List Int) (targetSum : Int) :
    List (Int × Int) :=
  reconstructLoop dp sizes (targetSum.toNat + 1) targetSum []

/-- Embeds `DPSolver.Solve` (run without cancellation): validate, normalize,
early-exit on an exact single-pack match, otherwise run the bounded DP and
reconstruct the best terminal sum. -/
def Solve (sizes : List Int) (amount : Int) : Except SolverError Solution :=
  match ValidateSolverInput sizes amount with
  | some e => .error e
  | none =>
    let normalizedSizes := normalizeSizes sizes
    if normalizedSizes = [] then .error (.invalidInput "no valid sizes after normalization")
    else if amount ∈ normalizedSizes then
      .ok (NewSolution [(amount, 1)] amount)
    else
      let maxSum := calculateMaxSum amount normalizedSizes
      let final := runDP normalizedSizes maxSum amount
      if final.bestSum = -1 then .error (.noSolution "no solution found")
      else .ok (NewSolution (reconstructSolution final.dp normalizedSizes final.bestSum) amount)

/-- Go's `fmt.Sprintf("%v", s)` on an int slice: elements separated by single
spaces, enclosed in square brackets. -/
def goFmtIntList : List Int → String
  | [] => "[]"
  | x :: xs => "[" ++ toString x ++ xs.foldl (fun acc y => acc ++ " " ++ toString y) "" ++ "]"

/-- Embeds `CachedSolver.generateCacheKey`: copy the sizes, sort them
ascending, serialize with `%v`, and join with the prefixed amount.  The Go
code hashes the serialization with SHA-256 and hex-encodes it; the hash step
is dropped here, so two inputs get the same modelled key exactly when they
agree modulo SHA-256 collisions. -/
def generateCacheKey (sizes : List Int) (amount : Int) : String :=
  let sortedSizes := List.insertionSort (· ≤ ·) sizes
  let sizesStr := goFmtIntList sortedSizes
  "solver:" ++ sizesStr ++ ":" ++ toString amount

/-- Embeds `CachedSolver.Solve` as a function of the outcome of the cache
lookup (`getFromCache`: a hit delivers a Solution, every failure — redis
error, unmarshal error or plain miss — an error string) and of what the inner
solver returns when invoked.  The returned flag records whether the
fire-and-forget background cache write was scheduled (the `go func` spawn). -/
def CachedSolve (lookup : Except String Solution)
    (inner : Except SolverError Solution) : Except SolverError Solution × Bool :=
  match lookup with
  | .ok solution => (.ok solution, false)
  | .error _ =>
    match inner with
    | .error e => (.error e, false)
    | .ok solution => (.ok solution, true)

/-! ### Characterization of validation -/

theorem validatePackSizesLoop_eq_none (seen : List Int) (l : List Int) :
    validatePackSizesLoop seen l = none ↔
      (∀ x ∈ l, 0 < x ∧ x ≤ 1000000) ∧ l.Nodup ∧ ∀ x ∈ l, x ∉ seen := by
  induction l generalizing seen with
  | nil => simp [validatePackSizesLoop]
  | cons a l ih =>
    simp only [validatePackSizesLoop]
    by_cases h1 : a ≤ 0
    · simp only [if_pos h1]
      constructor
      · intro h; cases h
      · rintro ⟨hall, -, -⟩
        have := (hall a (by simp)).1
        omega
    · rw [if_neg h1]
      by_cases h2 : a > 1000000
      · simp only [if_pos h2]
        constructor
        · intro h; cases h
        · rintro ⟨hall, -, -⟩
          have := (hall a (by simp)).2
          omega
      · rw [if_neg h2]
        by_cases h3 : a ∈ seen
        · simp only [if_pos h3]
          constructor
          · intro h; cases h
          · rintro ⟨-, -, hs⟩
            exact absurd h3 (hs a (by simp))
        · rw [if_neg h3, ih]
          constructor
          · rintro ⟨hall, hnd, hs⟩
            refine ⟨?_, ?_, ?_⟩
            · intro x hx
              rcases List.mem_cons.mp hx with rfl | hx
              · exact ⟨by omega, by omega⟩
              · exact hall x hx
            · refine List.nodup_cons.mpr ⟨?_, hnd⟩
              intro hmem
              exact absurd (List.mem_cons_self a seen) (hs a hmem)
            · intro x hx
              rcases List.mem_cons.mp hx with rfl | hx
              · exact h3
              · intro hseen
                exact hs x hx (List.mem_cons_of_mem a hseen)
          · rintro ⟨hall, hnd, hs⟩
            refine ⟨fun x hx => hall x (List.mem_cons_of_mem a hx), (List.nodup_cons.mp hnd).2, ?_⟩
            intro x hx hxs
            rcases List.mem_cons.mp hxs with rfl | hxseen
            · exact absurd hx (List.nodup_cons.mp hnd).1
            · exact hs x (List.mem_cons_of_mem a hx) hxseen

theorem validatePackSizes_eq_none (sizes : List Int) :
    ValidatePackSizes sizes = none ↔
      sizes ≠ [] ∧ (∀ x ∈ sizes, 0 < x ∧ x ≤ 1000000) ∧ sizes.Nodup := by
  unfold ValidatePackSizes
  by_cases h : sizes = []
  · simp [h]
  · rw [if_neg h, validatePackSizesLoop_eq_none]
    simp [h]

theorem validateAmount_eq_none (amount : Int) :
    ValidateAmount amount = none ↔ 0 < amount ∧ amount ≤ 1000000000 := by
  unfold ValidateAmount
  by_cases h1 : amount ≤ 0
  · simp [if_pos h1]; omega
  · rw [if_neg h1]
    by_cases h2 : amount > 1000000000
    · simp [if_pos h2]; omega
    · simp [if_neg h2]; omega

theorem validateSolverInput_eq_none (sizes : List Int) (amount : Int) :
    ValidateSolverInput sizes amount = none ↔
      sizes ≠ [] ∧ (∀ x ∈ sizes, 0 < x ∧ x ≤ 1000000) ∧ sizes.Nodup ∧
        0 < amount ∧ amount ≤ 1000000000 := by
  unfold ValidateSolverInput
  rcases hv : ValidatePackSizes sizes with _ | e
  · rw [validateAmount_eq_none]
    rw [validatePackSizes_eq_none] at hv
    simp only [hv, and_assoc]
    tauto
  · simp only []
    constructor
    · intro h; cases h
    · rintro ⟨h1, h2, h3, -⟩
      have : ValidatePackSizes sizes = none := (validatePackSizes_eq_none sizes).mpr ⟨h1, h2, h3⟩
      rw [this] at hv; cases hv

/-! ### Normalization -/

theorem mem_normalizeSizes (sizes : List Int) (x : Int) :
    x ∈ normalizeSizes sizes ↔ 0 < x ∧ x ∈ sizes := by
  unfold normalizeSizes
  by_cases h : sizes = []
  · simp [h]
  · rw [if_neg h]
    rw [(List.perm_insertionSort (· ≤ ·) _).mem_iff, List.mem_dedup, List.mem_filter]
    simp [and_comm]

theorem normalizeSizes_sorted (sizes : List Int) :
    List.Sorted (· ≤ ·) (normalizeSizes sizes) := by
  unfold normalizeSizes
  by_cases h : sizes = []
  · simp [h]
  · rw [if_neg h]
    exact List.sorted_insertionSort (· ≤ ·) _

theorem normalizeSizes_nodup (sizes : List Int) : (normalizeSizes sizes).Nodup := by
  unfold normalizeSizes
  by_cases h : sizes = []
  · simp [h]
  · rw [if_neg h]
    exact ((List.perm_insertionSort (· ≤ ·) _).nodup_iff).mpr (List.nodup_dedup _)

theorem normalizeSizes_pos (sizes : List Int) : ∀ x ∈ normalizeSizes sizes, 1 ≤ x := by
  intro x hx
  have := (mem_normalizeSizes sizes x).mp hx
  omega

theorem normalizeSizes_perm_eq {sizes sizes' : List Int} (h : sizes.Perm sizes') :
    normalizeSizes sizes = normalizeSizes sizes' := by
  unfold normalizeSizes
  by_cases h0 : sizes = []
  · subst h0
    rw [List.nil_perm] at h
    simp [h]
  · have h0' : sizes' ≠ [] := by
      intro habs
      subst habs
      rw [List.perm_nil] at h
      exact h0 h
    rw [if_neg h0, if_neg h0']
    have hperm : ((sizes.filter (fun s => 0 < s)).dedup).Perm
        ((sizes'.filter (fun s => 0 < s)).dedup) :=
      (h.filter _).dedup
    refine List.eq_of_perm_of_sorted ?_ (List.sorted_insertionSort _ _) (List.sorted_insertionSort _ _)
    exact ((List.perm_insertionSort _ _).trans hperm).trans (List.perm_insertionSort _ _).symm

theorem normalizeSizes_ne_nil {sizes : List Int} {amount : Int}
    (hval : ValidateSolverInput sizes amount = none) : normalizeSizes sizes ≠ [] := by
  rw [validateSolverInput_eq_none] at hval
  obtain ⟨hne, hall, -, -, -⟩ := hval
  rcases sizes with _ | ⟨a, l⟩
  · exact absurd rfl hne
  · intro habs
    have : a ∈ normalizeSizes (a :: l) :=
      (mem_normalizeSizes _ a).mpr ⟨(hall a (by simp)).1, by simp⟩
    rw [habs] at this
    cases this

/-! ### Claim C5 — validation policy (corrected) -/

/-- The acceptance condition exactly as claim C5 words it (spec side, for the
counterexample): non-empty after removing non-positive values, remaining
sizes at most 1,000,000, no duplicates in the raw list, target in range. -/
def specClaimedValid (sizes : List Int) (amount : Int) : Prop :=
  sizes.filter (fun s => 0 < s) ≠ [] ∧
  (∀ x ∈ sizes.filter (fun s => 0 < s), x ≤ 1000000) ∧
  sizes.Nodup ∧ 0 < amount ∧ amount ≤ 1000000000

instance (sizes : List Int) (amount : Int) : Decidable (specClaimedValid sizes amount) := by
  unfold specClaimedValid
  infer_instance

/-- Claim C5, counterexample: the raw list `[0, 3]` with target 5 satisfies
the claim's acceptance condition (non-positive entries removed, the rest
valid), yet `ValidateSolverInput` rejects it: the code errors out on any
non-positive entry instead of dropping it. -/
theorem claimC5_counterexample :
    specClaimedValid [0, 3] 5 ∧ ValidateSolverInput [0, 3] 5 ≠ none := by
  decide

/-- Claim C5 (amended): validation of `(sizes, target)` succeeds iff the raw
sizes list is non-empty, every entry is positive and at most 1,000,000, the
list has no duplicates, and the target is a positive integer at most
1,000,000,000.  Non-positive entries are rejected, not silently removed. -/
theorem claimC5 (sizes : List Int) (amount : Int) :
    ValidateSolverInput sizes amount = none ↔
      sizes ≠ [] ∧ (∀ x ∈ sizes, 0 < x ∧ x ≤ 1000000) ∧ sizes.Nodup ∧
        0 < amount ∧ amount ≤ 1000000000 :=
  validateSolverInput_eq_none sizes amount

/-! ### Claim C6 — cache key (corrected) -/

theorem generateCacheKey_perm {sizes sizes' : List Int} (amount : Int)
    (h : sizes.Perm sizes') :
    generateCacheKey sizes amount = generateCacheKey sizes' amount := by
  unfold generateCacheKey
  have : List.insertionSort (· ≤ ·) sizes = List.insertionSort (· ≤ ·) sizes' :=
    List.eq_of_perm_of_sorted
      (((List.perm_insertionSort _ _).trans h).trans (List.perm_insertionSort _ _).symm)
      (List.sorted_insertionSort _ _) (List.sorted_insertionSort _ _)
  rw [this]

/-- Claim C6, counterexample: `[2, 2]` and `[2]` have the same underlying set
of values, but their cache keys differ — `generateCacheKey` sorts the sizes
without deduplicating them, so duplicate entries change the serialized (and
hence hashed) key. -/
theorem claimC6_counterexample :
    (([2, 2] : List Int).toFinset = ([2] : List Int).toFinset) ∧
      generateCacheKey [2, 2] 5 ≠ generateCacheKey [2] 5 := by
  decide

/-- Claim C6 (amended): the cache key is a function only of the multiset of
sizes (element order is irrelevant, by the sort-before-serialize step) and the
target; duplicate entries, however, are kept and do affect the key. -/
theorem claimC6 (sizes sizes' : List Int) (amount : Int) (h : sizes.Perm sizes') :
    generateCacheKey sizes amount = generateCacheKey sizes' amount :=
  generateCacheKey_perm amount h

/-- Claim C6 witness: the concrete permuted lists `[5,3,2]` and `[2,3,5]`
yield the same key. -/
theorem claimC6_witness :
    generateCacheKey [5, 3, 2] 7 = generateCacheKey [2, 3, 5] 7 :=
  claimC6 [5, 3, 2] [2, 3, 5] 7 (by decide)

/-! ### Claim C7 — error propagation through the cache wrapper -/

/-- Claim C7: `CachedSolver.Solve` fails exactly when the lookup did not hit
and the inner solver fails; in that case the inner error is returned unchanged
and no background cache write is scheduled (solver errors are never cached).
A failed cache lookup alone never fails the composite call. -/
theorem claimC7 (lookup : Except String Solution) (inner : Except SolverError Solution) :
    (∀ e, (CachedSolve lookup inner).1 = .error e ↔
        ((∃ s, lookup = .error s) ∧ inner = .error e)) ∧
    (∀ s e, lookup = .error s → inner = .error e →
        CachedSolve lookup inner = (.error e, false)) := by
  constructor
  · intro e
    cases lookup with
    | ok sol => simp [CachedSolve]
    | error s =>
      cases inner with
      | ok sol => simp [CachedSolve]
      | error e' => simp [CachedSolve]
  · rintro s e rfl rfl
    rfl

/-- Claim C7 witness: a concrete miss (`"cache miss"`) with a failing inner
solver propagates the inner error and schedules no write. -/
theorem claimC7_witness :
    CachedSolve (.error "cache miss") (.error (.noSolution "no solution found")) =
      (.error (.noSolution "no solution found"), false) :=
  (claimC7 (.error "cache miss") (.error (.noSolution "no solution found"))).2
    "cache miss" (.noSolution "no solution found") rfl rfl

/-! ### Claim C8 — early exit on an exact single-pack match -/

/-- The early-exit branch of `Solve`: an exact single-pack match returns the
one-pack solution before the DP phase (shared helper for several claims). -/
theorem solve_early_exit (sizes : List Int) (amount : Int)
    (hval : ValidateSolverInput sizes amount = none) (hmem : amount ∈ sizes) :
    Solve sizes amount = .ok ⟨[(amount, 1)], 1, 0, amount⟩ := by
  unfold Solve
  rw [hval]
  have hpos : 0 < amount := by
    rw [validateSolverInput_eq_none] at hval
    exact hval.2.2.2.1
  have hmem' : amount ∈ normalizeSizes sizes := (mem_normalizeSizes _ _).mpr ⟨hpos, hmem⟩
  rw [if_neg (normalizeSizes_ne_nil hval), if_pos hmem']
  simp [NewSolution, totalPacks, totalItems]

/-- Claim C8: on any input passing validation in which some pack size equals
the target, `Solve` returns the one-pack exact solution
`{target: 1}, Packs = 1, Overage = 0` (taken from the early-exit branch that
runs before the DP table is built). -/
theorem claimC8 (sizes : List Int) (amount : Int)
    (hval : ValidateSolverInput sizes amount = none) (hmem : amount ∈ sizes) :
    Solve sizes amount = .ok ⟨[(amount, 1)], 1, 0, amount⟩ :=
  solve_early_exit sizes amount hval hmem

/-- Claim C8 witness: `sizes = [250, 500, 1000]`, target 250 gives the exact
one-pack solution. -/
theorem claimC8_witness :
    ValidateSolverInput [250, 500, 1000] 250 = none ∧
      Solve [250, 500, 1000] 250 = .ok ⟨[(250, 1)], 1, 0, 250⟩ :=
  ⟨by decide, claimC8 [250, 500, 1000] 250 (by decide) (by decide)⟩

/-! ### Combinations of packs and basic accounting lemmas -/

/-- A concrete multiset of packs, as a list `c` of sizes: every element is
drawn from `S`, the grand total is `t`, and `n` packs are used. -/
def RepWitness (S c : List Int) (t n : Int) : Prop :=
  (∀ x ∈ c, x ∈ S) ∧ c.sum = t ∧ (c.length : Int) = n

theorem list_length_le_sum {c : List Int} (h : ∀ x ∈ c, 1 ≤ x) :
    (c.length : Int) ≤ c.sum := by
  induction c with
  | nil => simp
  | cons a c ih =>
    have ha := h a (by simp)
    have := ih fun x hx => h x (List.mem_cons_of_mem a hx)
    simp only [List.length_cons, List.sum_cons]
    push_cast
    omega

theorem repWitness_nonneg {S c : List Int} {t n : Int} (hS : ∀ x ∈ S, 1 ≤ x)
    (h : RepWitness S c t n) : 0 ≤ t ∧ 0 ≤ n ∧ n ≤ t := by
  obtain ⟨hmem, hsum, hlen⟩ := h
  subst hsum hlen
  exact ⟨List.sum_nonneg fun x hx => le_trans (by norm_num) (hS x (hmem x hx)),
    by positivity, list_length_le_sum fun x hx => hS x (hmem x hx)⟩

theorem repWitness_erase {S c : List Int} {t n x : Int} (hx : x ∈ c)
    (h : RepWitness S c t n) : RepWitness S (c.erase x) (t - x) (n - 1) := by
  obtain ⟨hmem, hsum, hlen⟩ := h
  have hperm := List.perm_cons_erase hx
  refine ⟨fun y hy => hmem y (List.mem_of_mem_erase hy), ?_, ?_⟩
  · have := hperm.sum_eq
    simp only [List.sum_cons] at this
    omega
  · have hlen' := List.length_erase_of_mem hx
    have hpos : 1 ≤ c.length := List.length_pos.mpr (List.ne_nil_of_mem hx)
    rw [hlen']
    omega

theorem repWitness_erase_nonnil {S c : List Int} {t n x : Int} (hS : ∀ x ∈ S, 1 ≤ x)
    (hx : x ∈ c) (h : RepWitness S c t n) (ht : t - x ≠ 0) :
    ∃ y ∈ c.erase x, 1 ≤ y := by
  have h' := repWitness_erase hx h
  rcases he : c.erase x with _ | ⟨y, l⟩
  · exfalso
    rw [he] at h'
    obtain ⟨-, hsum, -⟩ := h'
    simp at hsum
    omega
  · exact ⟨y, by simp, hS y (h'.1 y (by rw [he]; simp))⟩

theorem getD_mem {S : List Int} {idx : Nat} (h : idx < S.length) : S.getD idx 0 ∈ S := by
  rw [List.getD_eq_getElem S 0 h]
  exact List.getElem_mem h

theorem foldl_add_shift (f : Int × Int → Int) (b : List (Int × Int)) :
    ∀ acc : Int, b.foldl (fun a q => a + f q) acc = acc + b.foldl (fun a q => a + f q) 0 := by
  induction b with
  | nil => simp
  | cons p b ih =>
    intro acc
    simp only [List.foldl_cons]
    rw [ih (acc + f p), ih (0 + f p)]
    ring

theorem totalPacks_cons (p : Int × Int) (b : List (Int × Int)) :
    totalPacks (p :: b) = p.2 + totalPacks b := by
  unfold totalPacks
  simp only [List.foldl_cons]
  rw [foldl_add_shift (fun q => q.2) b (0 + p.2)]
  ring

theorem totalItems_cons (p : Int × Int) (b : List (Int × Int)) :
    totalItems (p :: b) = p.1 * p.2 + totalItems b := by
  unfold totalItems
  simp only [List.foldl_cons]
  rw [foldl_add_shift (fun q => q.1 * q.2) b (0 + p.1 * p.2)]
  ring

theorem totalPacks_bumpKey (b : List (Int × Int)) (k : Int) :
    totalPacks (bumpKey b k) = totalPacks b + 1 := by
  induction b with
  | nil => simp [bumpKey, totalPacks]
  | cons p b ih =>
    rcases p with ⟨k', v⟩
    unfold bumpKey
    by_cases h : k' = k
    · rw [if_pos h, totalPacks_cons, totalPacks_cons]
      ring
    · rw [if_neg h, totalPacks_cons, totalPacks_cons, ih]
      ring

theorem totalItems_bumpKey (b : List (Int × Int)) (k : Int) :
    totalItems (bumpKey b k) = totalItems b + k := by
  induction b with
  | nil => simp [bumpKey, totalItems]
  | cons p b ih =>
    rcases p with ⟨k', v⟩
    unfold bumpKey
    by_cases h : k' = k
    · rw [if_pos h, totalItems_cons, totalItems_cons]
      subst h
      ring
    · rw [if_neg h, totalItems_cons, totalItems_cons, ih]
      ring

theorem mem_bumpKey (b : List (Int × Int)) (k : Int) :
    ∀ p ∈ bumpKey b k, p.1 = k ∨ ∃ q ∈ b, q.1 = p.1 := by
  induction b with
  | nil =>
    intro p hp
    simp [bumpKey] at hp
    left
    rw [hp]
  | cons q b ih =>
    rcases q with ⟨k', v⟩
    intro p hp
    unfold bumpKey at hp
    by_cases h : k' = k
    · rw [if_pos h] at hp
      rcases List.mem_cons.mp hp with h1 | hp'
      · subst h1
        left; exact h
      · right; exact ⟨p, List.mem_cons_of_mem _ hp', rfl⟩
    · rw [if_neg h] at hp
      rcases List.mem_cons.mp hp with h1 | hp'
      · subst h1
        right; exact ⟨(k', v), by simp, rfl⟩
      · rcases ih p hp' with h1 | ⟨q, hq, hq1⟩
        · left; exact h1
        · right; exact ⟨q, List.mem_cons_of_mem _ hq, hq1⟩

/-! ### Writes to the DP table -/

theorem writeDp_eq (dp : Int → DpState) (t : Int) (v : DpState) : writeDp dp t v t = v :=
  if_pos rfl

theorem writeDp_ne (dp : Int → DpState) (t : Int) (v : DpState) {u : Int} (h : u ≠ t) :
    writeDp dp t v u = dp u :=
  if_neg h

/-! ### The DP loop invariant

`MidDp`/`MidBest` describe the state in the middle of processing source sum
`sum`, when the sizes in `rest` (a suffix of `S`) are still to be tried from
this source.  `Invariant s` describes the state between outer iterations,
after all sources `< s` have been fully processed. -/

structure MidDp (S : List Int) (maxSum sum : Int) (rest : List Int) (st : LoopState) : Prop where
  zero : st.dp 0 = ⟨0, -1⟩
  lower : ∀ t, -1 ≤ (st.dp t).packs
  parentNone : ∀ t, t ≠ 0 → (st.dp t).packs = -1 → (st.dp t).parent = -1
  srcReach : 0 ≤ (st.dp sum).packs
  sound : ∀ t, t ≠ 0 → (st.dp t).packs ≠ -1 →
    1 ≤ (st.dp t).packs ∧ 1 ≤ t ∧ t ≤ maxSum ∧
    ∃ idx : Nat, (st.dp t).parent = (idx : Int) ∧ idx < S.length ∧
      1 ≤ S.getD idx 0 ∧ S.getD idx 0 ≤ t ∧ t - S.getD idx 0 ≤ sum ∧
      (st.dp (t - S.getD idx 0)).packs = (st.dp t).packs - 1
  minimal : ∀ t n c, RepWitness S c t n → 0 ≤ t → t ≤ maxSum →
    (t = 0 ∨ (∃ x ∈ c, t - x < sum) ∨ (∃ x ∈ c, t - x = sum ∧ x ∉ rest)) →
    (st.dp t).packs ≠ -1 ∧ (st.dp t).packs ≤ n

structure MidBest (S : List Int) (maxSum amount sum : Int) (rest : List Int)
    (st : LoopState) : Prop where
  bestSound : st.bestSum = -1 ∨
    (amount ≤ st.bestSum ∧ st.bestSum ≤ maxSum ∧ 1 ≤ st.bestPacks ∧
      ∃ c, RepWitness S c st.bestSum st.bestPacks)
  bestMin : ∀ t n c, RepWitness S c t n → amount ≤ t → t ≤ maxSum →
    ((∃ x ∈ c, t - x < sum) ∨ (∃ x ∈ c, t - x = sum ∧ x ∉ rest)) →
    st.bestSum ≠ -1 ∧ (st.bestSum < t ∨ (st.bestSum = t ∧ st.bestPacks ≤ n))

structure Invariant (S : List Int) (maxSum amount s : Int) (st : LoopState) : Prop where
  zero : st.dp 0 = ⟨0, -1⟩
  lower : ∀ t, -1 ≤ (st.dp t).packs
  parentNone : ∀ t, t ≠ 0 → (st.dp t).packs = -1 → (st.dp t).parent = -1
  sound : ∀ t, t ≠ 0 → (st.dp t).packs ≠ -1 →
    1 ≤ (st.dp t).packs ∧ 1 ≤ t ∧ t ≤ maxSum ∧
    ∃ idx : Nat, (st.dp t).parent = (idx : Int) ∧ idx < S.length ∧
      1 ≤ S.getD idx 0 ∧ S.getD idx 0 ≤ t ∧ t - S.getD idx 0 < s ∧
      (st.dp (t - S.getD idx 0)).packs = (st.dp t).packs - 1
  minimal : ∀ t n c, RepWitness S c t n → 0 ≤ t → t ≤ maxSum →
    (t = 0 ∨ ∃ x ∈ c, t - x < s) →
    (st.dp t).packs ≠ -1 ∧ (st.dp t).packs ≤ n
  bestSound : st.bestSum = -1 ∨
    (amount ≤ st.bestSum ∧ st.bestSum ≤ maxSum ∧ 1 ≤ st.bestPacks ∧
      ∃ c, RepWitness S c st.bestSum st.bestPacks)
  bestMin : ∀ t n c, RepWitness S c t n → amount ≤ t → t ≤ maxSum →
    (∃ x ∈ c, t - x < s) →
    st.bestSum ≠ -1 ∧ (st.bestSum < t ∨ (st.bestSum = t ∧ st.bestPacks ≤ n))

/-- Soundness of the chain encoded by `parent` links: a table entry with pack
count `k` unwinds, along parents, to a concrete combination of `k` packs that
sums to the entry's index. -/
theorem chainRep (S : List Int) (dp : Int → DpState)
    (hzero : dp 0 = ⟨0, -1⟩)
    (hsound : ∀ t, t ≠ 0 → (dp t).packs ≠ -1 →
      1 ≤ (dp t).packs ∧
      ∃ idx : Nat, (dp t).parent = (idx : Int) ∧ idx < S.length ∧
        1 ≤ S.getD idx 0 ∧ S.getD idx 0 ≤ t ∧
        (dp (t - S.getD idx 0)).packs = (dp t).packs - 1) :
    ∀ (k : Nat) (t : Int), (dp t).packs = (k : Int) → ∃ c, RepWitness S c t (k : Int) := by
  intro k
  induction k with
  | zero =>
    intro t ht
    have : t = 0 := by
      by_contra h0
      have := (hsound t h0 (by rw [ht]; omega)).1
      omega
    subst this
    exact ⟨[], fun x hx => absurd hx (List.not_mem_nil x), by simp, by simp⟩
  | succ k ih =>
    intro t ht
    have h0 : t ≠ 0 := by
      intro h
      subst h
      rw [hzero] at ht
      simp at ht
      omega
    obtain ⟨-, idx, hpar, hidx, hsz1, hszt, hchain⟩ := hsound t h0 (by rw [ht]; omega)
    rw [ht] at hchain
    rw [show ((k + 1 : Nat) : Int) - 1 = (k : Int) by push_cast; ring] at hchain
    obtain ⟨c, hcmem, hcsum, hclen⟩ := ih (t - S.getD idx 0) hchain
    refine ⟨S.getD idx 0 :: c, ?_, ?_, ?_⟩
    · intro x hx
      rcases List.mem_cons.mp hx with rfl | hx
      · exact getD_mem hidx
      · exact hcmem x hx
    · simp only [List.sum_cons]
      omega
    · simp only [List.length_cons]
      push_cast
      omega

theorem bestUpdate_dp (a ns np : Int) (st : LoopState) :
    (bestUpdate a ns np st).dp = st.dp := by
  unfold bestUpdate
  split_ifs <;> rfl

theorem bestUpdate_spec (a ns np : Int) (st : LoopState) :
    ((bestUpdate a ns np st).bestSum = ns ∧ (bestUpdate a ns np st).bestPacks = np ∧
      (st.bestSum = -1 ∨ ns < st.bestSum ∨ (ns = st.bestSum ∧ np < st.bestPacks))) ∨
    ((bestUpdate a ns np st).bestSum = st.bestSum ∧
      (bestUpdate a ns np st).bestPacks = st.bestPacks ∧
      st.bestSum ≠ -1 ∧ st.bestSum ≤ ns ∧ (st.bestSum = ns → st.bestPacks ≤ np)) := by
  unfold bestUpdate
  split_ifs with h1 h2
  · left
    exact ⟨rfl, rfl, Or.inl h1⟩
  · left
    refine ⟨rfl, rfl, ?_⟩
    rcases h2 with h | ⟨h, h'⟩
    · right; left; omega
    · right; right; constructor <;> omega
  · right
    refine ⟨rfl, rfl, h1, ?_, ?_⟩ <;> [skip; intro he] <;> omega

/-- Effect of the candidate comparison on the `MidBest` part of the
invariant, when the candidate `(sum + size, dp[sum].packs + 1)` is in range
and reaches the amount: the unprocessed suffix shrinks from `size :: rest'`
to `rest'`.  `st1` is the state fed to `bestUpdate` (its best fields agree
with `st`; only its dp part may have been relaxed). -/
theorem midBest_after_bestUpdate
    (S : List Int)
    (maxSum amount sum : Int) (hsum0 : 0 ≤ sum)
    (idx : Nat) (size : Int) (rest' : List Int)
    (hidx : idx < S.length) (hget : S.getD idx 0 = size) (hsize : 1 ≤ size)
    (st : LoopState)
    (hdp : MidDp S maxSum sum (size :: rest') st)
    (hbest : MidBest S maxSum amount sum (size :: rest') st)
    (hsrcB : ∀ t n c, RepWitness S c t n → t ≤ maxSum → t - size = sum → size ∈ c →
      (st.dp sum).packs + 1 ≤ n)
    (hb1 : ¬ maxSum < sum + size) (ha : amount ≤ sum + size)
    {st1 : LoopState} (h1 : st1.bestSum = st.bestSum) (h2 : st1.bestPacks = st.bestPacks) :
    MidBest S maxSum amount sum rest'
      (bestUpdate amount (sum + size) ((st.dp sum).packs + 1) st1) := by
  have hsrc := hdp.srcReach
  have hns1 : 1 ≤ sum + size := by omega
  -- a concrete combination realizing the candidate
  have hcand : ∃ c, RepWitness S c (sum + size) ((st.dp sum).packs + 1) := by
    have hk : ((st.dp sum).packs.toNat : Int) = (st.dp sum).packs := by omega
    obtain ⟨c0, hc0m, hc0s, hc0l⟩ := chainRep S st.dp hdp.zero
      (fun t h0 hne => by
        obtain ⟨a1, _, _, idx0, b1, b2, b3, b4, _, b6⟩ := hdp.sound t h0 hne
        exact ⟨a1, idx0, b1, b2, b3, b4, b6⟩)
      (st.dp sum).packs.toNat sum hk.symm
    refine ⟨size :: c0, ?_, ?_, ?_⟩
    · intro x hx
      rcases List.mem_cons.mp hx with hx1 | hx1
      · subst hx1; rw [← hget]; exact getD_mem hidx
      · exact hc0m x hx1
    · simp only [List.sum_cons]; omega
    · simp only [List.length_cons]; push_cast; omega
  rcases bestUpdate_spec amount (sum + size) ((st.dp sum).packs + 1) st1 with
    ⟨e1, e2, hcase⟩ | ⟨e1, e2, hne', hle', himp'⟩
  · -- the candidate was adopted
    rw [h1, h2] at hcase
    refine ⟨?_, ?_⟩
    · right
      rw [e1, e2]
      exact ⟨ha, by omega, by omega, hcand⟩
    · intro t n c hrep hamt hW hcond
      rw [e1, e2]
      have hprev : (∃ x ∈ c, t - x < sum) ∨
          (∃ x ∈ c, t - x = sum ∧ x ∉ size :: rest') ∨ (t = sum + size ∧ size ∈ c) := by
        rcases hcond with h | ⟨x, hx, hxs, hxr⟩
        · left; exact h
        · by_cases hxsize : x = size
          · subst hxsize; right; right; exact ⟨by omega, hx⟩
          · right; left
            exact ⟨x, hx, hxs, fun hmem => by
              rcases List.mem_cons.mp hmem with hm | hm
              · exact hxsize hm
              · exact hxr hm⟩
      rcases hprev with hOld | hOld | ⟨hts, hxc⟩
      · obtain ⟨hbne, hblex⟩ := hbest.bestMin t n c hrep hamt hW (Or.inl hOld)
        rcases hcase with hc | hc | hc
        · exact absurd hc hbne
        · rcases hblex with hb | hb <;> [skip; obtain ⟨hb, hb'⟩ := hb] <;>
            exact ⟨by omega, by omega⟩
        · obtain ⟨hc, hc'⟩ := hc
          rcases hblex with hb | hb <;> [skip; obtain ⟨hb, hb'⟩ := hb] <;>
            exact ⟨by omega, by omega⟩
      · obtain ⟨hbne, hblex⟩ := hbest.bestMin t n c hrep hamt hW (Or.inr hOld)
        rcases hcase with hc | hc | hc
        · exact absurd hc hbne
        · rcases hblex with hb | hb <;> [skip; obtain ⟨hb, hb'⟩ := hb] <;>
            exact ⟨by omega, by omega⟩
        · obtain ⟨hc, hc'⟩ := hc
          rcases hblex with hb | hb <;> [skip; obtain ⟨hb, hb'⟩ := hb] <;>
            exact ⟨by omega, by omega⟩
      · have hnp := hsrcB t n c hrep hW (by omega) hxc
        exact ⟨by omega, by omega⟩
  · -- the previous best was kept
    rw [h1] at hne' e1
    rw [h2] at himp' e2
    rw [h1] at hle' himp'
    refine ⟨?_, ?_⟩
    · rcases hbest.bestSound with hbs | hgood
      · exact absurd hbs hne'
      · right
        rw [e1, e2]
        exact hgood
    · intro t n c hrep hamt hW hcond
      rw [e1, e2]
      have hprev : (∃ x ∈ c, t - x < sum) ∨
          (∃ x ∈ c, t - x = sum ∧ x ∉ size :: rest') ∨ (t = sum + size ∧ size ∈ c) := by
        rcases hcond with h | ⟨x, hx, hxs, hxr⟩
        · left; exact h
        · by_cases hxsize : x = size
          · subst hxsize; right; right; exact ⟨by omega, hx⟩
          · right; left
            exact ⟨x, hx, hxs, fun hmem => by
              rcases List.mem_cons.mp hmem with hm | hm
              · exact hxsize hm
              · exact hxr hm⟩
      rcases hprev with hOld | hOld | ⟨hts, hxc⟩
      · exact hbest.bestMin t n c hrep hamt hW (Or.inl hOld)
      · exact hbest.bestMin t n c hrep hamt hW (Or.inr hOld)
      · have hnp := hsrcB t n c hrep hW (by omega) hxc
        refine ⟨hne', ?_⟩
        by_cases heq : st.bestSum = sum + size
        · have := himp' heq
          right
          exact ⟨by omega, by omega⟩
        · left
          omega

/-- Single-step preservation of the mid-loop invariant: trying size `size`
(at index `idx`, the head of the unprocessed suffix `size :: rest'`) from
source `sum` maintains `MidDp` and `MidBest`, shrinking the unprocessed
suffix to `rest'`. -/
theorem innerStep_preserves
    (S : List Int) (hS : ∀ x ∈ S, 1 ≤ x)
    (maxSum amount sum : Int) (hsum0 : 0 ≤ sum) (hsumW : sum ≤ maxSum)
    (idx : Nat) (size : Int) (rest' : List Int)
    (hidx : idx < S.length) (hget : S.getD idx 0 = size)
    (st : LoopState)
    (hdp : MidDp S maxSum sum (size :: rest') st)
    (hbest : MidBest S maxSum amount sum (size :: rest') st) :
    MidDp S maxSum sum rest' (innerStep maxSum amount sum st idx size) ∧
    MidBest S maxSum amount sum rest' (innerStep maxSum amount sum st idx size) := by
  have hsize : 1 ≤ size := by rw [← hget]; exact hS _ (getD_mem hidx)
  have ht'1 : 1 ≤ sum + size := by omega
  -- the candidate pack count through this transition is bounded by any
  -- combination of the claim shape that uses `size` from source `sum`
  have hsrcB : ∀ t n c, RepWitness S c t n → t ≤ maxSum → t - size = sum → size ∈ c →
      (st.dp sum).packs + 1 ≤ n := by
    intro t n c hrep hW hts hxc
    have herase := repWitness_erase hxc hrep
    rw [hts] at herase
    have hcond : sum = 0 ∨ (∃ y ∈ c.erase size, sum - y < sum) ∨
        (∃ y ∈ c.erase size, sum - y = sum ∧ y ∉ size :: rest') := by
      by_cases h0 : sum = 0
      · left; exact h0
      · right; left
        obtain ⟨y, hy, hy1⟩ := repWitness_erase_nonnil hS hxc hrep (by omega)
        exact ⟨y, hy, by omega⟩
    have := hdp.minimal sum (n - 1) (c.erase size) herase hsum0 (by omega) hcond
    omega
  by_cases hb1 : maxSum < sum + size
  · have hstep : innerStep maxSum amount sum st idx size = st := by
      simp only [innerStep]
      rw [if_pos hb1]
    rw [hstep]
    constructor
    · refine ⟨hdp.zero, hdp.lower, hdp.parentNone, hdp.srcReach, hdp.sound, ?_⟩
      intro t n c hrep h0 hW hcond
      apply hdp.minimal t n c hrep h0 hW
      rcases hcond with h | h | ⟨x, hx, hxs, hxr⟩
      · left; exact h
      · right; left; exact h
      · right; right
        refine ⟨x, hx, hxs, ?_⟩
        intro hmem
        rcases List.mem_cons.mp hmem with h1 | h1
        · subst h1; omega
        · exact hxr h1
    · refine ⟨hbest.bestSound, ?_⟩
      intro t n c hrep hamt hW hcond
      apply hbest.bestMin t n c hrep hamt hW
      rcases hcond with h | ⟨x, hx, hxs, hxr⟩
      · left; exact h
      · right
        refine ⟨x, hx, hxs, ?_⟩
        intro hmem
        rcases List.mem_cons.mp hmem with h1 | h1
        · subst h1; omega
        · exact hxr h1
  · -- within bounds; analyze the dp write, then the best update
    have hsrc := hdp.srcReach
    -- the state after the (possible) relaxation of dp[sum+size]
    by_cases hw : (st.dp (sum + size)).packs = -1 ∨
        (st.dp sum).packs + 1 < (st.dp (sum + size)).packs
    · -- write case
      have hdpv : ∀ u, u ≠ sum + size →
          writeDp st.dp (sum + size) ⟨(st.dp sum).packs + 1, (idx : Int)⟩ u = st.dp u :=
        fun u hu => writeDp_ne _ _ _ hu
      have hdpt : writeDp st.dp (sum + size) ⟨(st.dp sum).packs + 1, (idx : Int)⟩ (sum + size)
          = ⟨(st.dp sum).packs + 1, (idx : Int)⟩ := writeDp_eq _ _ _
      have hdp1 : MidDp S maxSum sum rest'
          { st with dp := writeDp st.dp (sum + size) ⟨(st.dp sum).packs + 1, (idx : Int)⟩ } := by
        refine ⟨?_, ?_, ?_, ?_, ?_, ?_⟩ <;> dsimp only
        · rw [hdpv 0 (by omega)]
          exact hdp.zero
        · intro t
          by_cases htt : t = sum + size
          · subst htt; rw [hdpt]; dsimp only; omega
          · rw [hdpv t htt]; exact hdp.lower t
        · intro t h0 hpk
          by_cases htt : t = sum + size
          · subst htt
            rw [hdpt] at hpk ⊢
            dsimp only at hpk
            omega
          · rw [hdpv t htt] at hpk ⊢
            exact hdp.parentNone t h0 hpk
        · rw [hdpv sum (by omega)]
          exact hsrc
        · intro t h0 hne
          by_cases htt : t = sum + size
          · subst htt
            rw [hdpt] at hne ⊢
            refine ⟨by dsimp only; omega, by omega, by omega, idx, rfl, hidx, ?_, ?_, ?_, ?_⟩
            · rw [hget]; exact hsize
            · rw [hget]; omega
            · rw [hget]; omega
            · rw [hget]
              have heq : sum + size - size = sum := by ring
              rw [heq, hdpv sum (by omega)]
              dsimp only
              omega
          · rw [hdpv t htt] at hne ⊢
            obtain ⟨h1, h2, h3, idx0, hpar, hidx0, hg1, hg2, hgb, hchain⟩ :=
              hdp.sound t h0 hne
            refine ⟨h1, h2, h3, idx0, hpar, hidx0, hg1, hg2, hgb, ?_⟩
            rw [hdpv (t - S.getD idx0 0) (by omega)]
            exact hchain
        · intro t n c hrep h0 hW hcond
          by_cases htt : t = sum + size
          · subst htt
            rw [hdpt]
            dsimp only
            rcases hcond with h | h | ⟨x, hx, hxs, hxr⟩
            · omega
            · have hold := hdp.minimal (sum + size) n c hrep h0 hW (Or.inr (Or.inl h))
              rcases hw with hw1 | hw2
              · exact absurd hw1 hold.1
              · omega
            · by_cases hxsize : x = size
              · have := hsrcB (sum + size) n c hrep hW (by omega)
                  (by rw [← hxsize]; exact hx)
                omega
              · have hold := hdp.minimal (sum + size) n c hrep h0 hW
                  (Or.inr (Or.inr ⟨x, hx, hxs, fun hmem => by
                    rcases List.mem_cons.mp hmem with h1 | h1
                    · exact hxsize h1
                    · exact hxr h1⟩))
                rcases hw with hw1 | hw2
                · exact absurd hw1 hold.1
                · omega
          · rw [hdpv t htt]
            apply hdp.minimal t n c hrep h0 hW
            rcases hcond with h | h | ⟨x, hx, hxs, hxr⟩
            · left; exact h
            · right; left; exact h
            · right; right
              refine ⟨x, hx, hxs, fun hmem => ?_⟩
              rcases List.mem_cons.mp hmem with h1 | h1
              · subst h1; omega
              · exact hxr h1
      by_cases ha : amount ≤ sum + size
      · have hstep : innerStep maxSum amount sum st idx size =
            bestUpdate amount (sum + size) ((st.dp sum).packs + 1)
              { st with dp :=
                  writeDp st.dp (sum + size) ⟨(st.dp sum).packs + 1, (idx : Int)⟩ } := by
          simp only [innerStep]
          rw [if_neg hb1, if_pos hw, if_pos ha]
        rw [hstep]
        refine ⟨?_, ?_⟩
        · refine ⟨?_, ?_, ?_, ?_, ?_, ?_⟩ <;>
            rw [bestUpdate_dp] <;>
            first
              | exact hdp1.zero
              | exact hdp1.lower
              | exact hdp1.parentNone
              | exact hdp1.srcReach
              | exact hdp1.sound
              | exact hdp1.minimal
        · exact midBest_after_bestUpdate S maxSum amount sum hsum0 idx size rest'
            hidx hget hsize st hdp hbest hsrcB hb1 ha rfl rfl
      · have hstep : innerStep maxSum amount sum st idx size =
            { st with dp :=
                writeDp st.dp (sum + size) ⟨(st.dp sum).packs + 1, (idx : Int)⟩ } := by
          simp only [innerStep]
          rw [if_neg hb1, if_pos hw, if_neg ha]
        rw [hstep]
        refine ⟨hdp1, ?_, ?_⟩
        · exact hbest.bestSound
        · intro t n c hrep hamt hW hcond
          apply hbest.bestMin t n c hrep hamt hW
          rcases hcond with h | ⟨x, hx, hxs, hxr⟩
          · left; exact h
          · right
            refine ⟨x, hx, hxs, fun hmem => ?_⟩
            rcases List.mem_cons.mp hmem with h1 | h1
            · subst h1; omega
            · exact hxr h1
    · -- no-write case: the dp table is unchanged
      have hdp1 : MidDp S maxSum sum rest' st := by
        push_neg at hw
        refine ⟨hdp.zero, hdp.lower, hdp.parentNone, hdp.srcReach, hdp.sound, ?_⟩
        intro t n c hrep h0 hW hcond
        by_cases htt : t = sum + size
        · subst htt
          rcases hcond with h | h | ⟨x, hx, hxs, hxr⟩
          · omega
          · exact hdp.minimal (sum + size) n c hrep h0 hW (Or.inr (Or.inl h))
          · by_cases hxsize : x = size
            · have := hsrcB (sum + size) n c hrep hW (by omega)
                (by rw [← hxsize]; exact hx)
              omega
            · exact hdp.minimal (sum + size) n c hrep h0 hW
                (Or.inr (Or.inr ⟨x, hx, hxs, fun hmem => by
                  rcases List.mem_cons.mp hmem with h1 | h1
                  · exact hxsize h1
                  · exact hxr h1⟩))
        · apply hdp.minimal t n c hrep h0 hW
          rcases hcond with h | h | ⟨x, hx, hxs, hxr⟩
          · left; exact h
          · right; left; exact h
          · right; right
            refine ⟨x, hx, hxs, fun hmem => ?_⟩
            rcases List.mem_cons.mp hmem with h1 | h1
            · subst h1; omega
            · exact hxr h1
      by_cases ha : amount ≤ sum + size
      · have hstep : innerStep maxSum amount sum st idx size =
            bestUpdate amount (sum + size) ((st.dp sum).packs + 1) st := by
          simp only [innerStep]
          rw [if_neg hb1, if_neg hw, if_pos ha]
        rw [hstep]
        refine ⟨?_, ?_⟩
        · refine ⟨?_, ?_, ?_, ?_, ?_, ?_⟩ <;>
            rw [bestUpdate_dp] <;>
            first
              | exact hdp1.zero
              | exact hdp1.lower
              | exact hdp1.parentNone
              | exact hdp1.srcReach
              | exact hdp1.sound
              | exact hdp1.minimal
        · exact midBest_after_bestUpdate S maxSum amount sum hsum0 idx size rest'
            hidx hget hsize st hdp hbest hsrcB hb1 ha rfl rfl
      · have hstep : innerStep maxSum amount sum st idx size = st := by
          simp only [innerStep]
          rw [if_neg hb1, if_neg hw, if_neg ha]
        rw [hstep]
        refine ⟨hdp1, ?_, ?_⟩
        · exact hbest.bestSound
        · intro t n c hrep hamt hW hcond
          apply hbest.bestMin t n c hrep hamt hW
          rcases hcond with h | ⟨x, hx, hxs, hxr⟩
          · left; exact h
          · right
            refine ⟨x, hx, hxs, fun hmem => ?_⟩
            rcases List.mem_cons.mp hmem with h1 | h1
            · subst h1; omega
            · exact hxr h1

/-- The inner loop over the whole remaining suffix preserves the invariant,
emptying the unprocessed suffix. -/
theorem innerLoop_preserves (S : List Int) (hS : ∀ x ∈ S, 1 ≤ x)
    (maxSum amount sum : Int) (hsum0 : 0 ≤ sum) (hsumW : sum ≤ maxSum) :
    ∀ (rest : List Int) (idx : Nat) (st : LoopState), S.drop idx = rest →
      MidDp S maxSum sum rest st → MidBest S maxSum amount sum rest st →
      MidDp S maxSum sum [] (innerLoop maxSum amount sum idx rest st) ∧
      MidBest S maxSum amount sum [] (innerLoop maxSum amount sum idx rest st) := by
  intro rest
  induction rest with
  | nil =>
    intro idx st hdrop hdp hbest
    exact ⟨hdp, hbest⟩
  | cons size rest' ih =>
    intro idx st hdrop hdp hbest
    have hidx : idx < S.length := by
      by_contra h
      push_neg at h
      rw [List.drop_eq_nil_of_le h] at hdrop
      cases hdrop
    rw [List.drop_eq_getElem_cons hidx] at hdrop
    injection hdrop with hg hd
    have hget : S.getD idx 0 = size := by
      rw [List.getD_eq_getElem S 0 hidx]
      exact hg
    obtain ⟨hdp', hbest'⟩ := innerStep_preserves S hS maxSum amount sum hsum0 hsumW
      idx size rest' hidx hget st hdp hbest
    exact ih (idx + 1) _ hd hdp' hbest'

/-- Processing one source sum takes `Invariant s` to `Invariant (s + 1)`. -/
theorem sumStep_preserves (S : List Int) (hS : ∀ x ∈ S, 1 ≤ x)
    (maxSum amount sum : Int) (hsum0 : 0 ≤ sum) (hsumW : sum ≤ maxSum)
    (st : LoopState) (hinv : Invariant S maxSum amount sum st) :
    Invariant S maxSum amount (sum + 1) (sumStep S maxSum amount sum st) := by
  unfold sumStep
  by_cases hskip : (st.dp sum).packs = -1
  · rw [if_pos hskip]
    refine ⟨hinv.zero, hinv.lower, hinv.parentNone, ?_, ?_, hinv.bestSound, ?_⟩
    · intro t h0 hne
      obtain ⟨h1, h2, h3, idx0, hpar, hidx0, hg1, hg2, hgb, hchain⟩ := hinv.sound t h0 hne
      exact ⟨h1, h2, h3, idx0, hpar, hidx0, hg1, hg2, by omega, hchain⟩
    · intro t n c hrep h0 hW hcond
      apply hinv.minimal t n c hrep h0 hW
      rcases hcond with h | ⟨x, hx, hxlt⟩
      · left; exact h
      · by_cases hlt : t - x < sum
        · right; exact ⟨x, hx, hlt⟩
        · exfalso
          have hts : t - x = sum := by omega
          have herase := repWitness_erase hx hrep
          rw [hts] at herase
          have hcond' : sum = 0 ∨ ∃ y ∈ c.erase x, sum - y < sum := by
            by_cases h0' : sum = 0
            · left; exact h0'
            · right
              obtain ⟨y, hy, hy1⟩ := repWitness_erase_nonnil hS hx hrep (by omega)
              exact ⟨y, hy, by omega⟩
          have hmin := hinv.minimal sum (n - 1) (c.erase x) herase hsum0 (by omega)
            (by rcases hcond' with h' | ⟨y, hy, hy'⟩
                · left; exact h'
                · right; exact ⟨y, hy, hy'⟩)
          exact hmin.1 hskip
    · intro t n c hrep hamt hW hcond
      obtain ⟨x, hx, hxlt⟩ := hcond
      by_cases hlt : t - x < sum
      · exact hinv.bestMin t n c hrep hamt hW ⟨x, hx, hlt⟩
      · exfalso
        have hts : t - x = sum := by omega
        have herase := repWitness_erase hx hrep
        rw [hts] at herase
        have hcond' : sum = 0 ∨ ∃ y ∈ c.erase x, sum - y < sum := by
          by_cases h0' : sum = 0
          · left; exact h0'
          · right
            obtain ⟨y, hy, hy1⟩ := repWitness_erase_nonnil hS hx hrep (by omega)
            exact ⟨y, hy, by omega⟩
        have hmin := hinv.minimal sum (n - 1) (c.erase x) herase hsum0 (by omega)
          (by rcases hcond' with h' | ⟨y, hy, hy'⟩
              · left; exact h'
              · right; exact ⟨y, hy, hy'⟩)
        exact hmin.1 hskip
  · rw [if_neg hskip]
    have hdp0 : MidDp S maxSum sum S st := by
      have hlow := hinv.lower sum
      refine ⟨hinv.zero, hinv.lower, hinv.parentNone, by omega, ?_, ?_⟩
      · intro t h0 hne
        obtain ⟨h1, h2, h3, idx0, hpar, hidx0, hg1, hg2, hgb, hchain⟩ := hinv.sound t h0 hne
        exact ⟨h1, h2, h3, idx0, hpar, hidx0, hg1, hg2, by omega, hchain⟩
      · intro t n c hrep h0 hW hcond
        apply hinv.minimal t n c hrep h0 hW
        rcases hcond with h | h | ⟨x, hx, hxs, hxr⟩
        · left; exact h
        · right; exact h
        · exact absurd (hrep.1 x hx) hxr
    have hbest0 : MidBest S maxSum amount sum S st := by
      refine ⟨hinv.bestSound, ?_⟩
      intro t n c hrep hamt hW hcond
      apply hinv.bestMin t n c hrep hamt hW
      rcases hcond with h | ⟨x, hx, hxs, hxr⟩
      · exact h
      · exact absurd (hrep.1 x hx) hxr
    obtain ⟨hdpF, hbestF⟩ := innerLoop_preserves S hS maxSum amount sum hsum0 hsumW
      S 0 st (by simp) hdp0 hbest0
    refine ⟨hdpF.zero, hdpF.lower, hdpF.parentNone, ?_, ?_, hbestF.bestSound, ?_⟩
    · intro t h0 hne
      obtain ⟨h1, h2, h3, idx0, hpar, hidx0, hg1, hg2, hgb, hchain⟩ := hdpF.sound t h0 hne
      exact ⟨h1, h2, h3, idx0, hpar, hidx0, hg1, hg2, by omega, hchain⟩
    · intro t n c hrep h0 hW hcond
      apply hdpF.minimal t n c hrep h0 hW
      rcases hcond with h | ⟨x, hx, hxlt⟩
      · left; exact h
      · by_cases hlt : t - x < sum
        · right; left; exact ⟨x, hx, hlt⟩
        · right; right; exact ⟨x, hx, by omega, List.not_mem_nil x⟩
    · intro t n c hrep hamt hW hcond
      apply hbestF.bestMin t n c hrep hamt hW
      obtain ⟨x, hx, hxlt⟩ := hcond
      by_cases hlt : t - x < sum
      · left; exact ⟨x, hx, hlt⟩
      · right; exact ⟨x, hx, by omega, List.not_mem_nil x⟩

/-- The outer loop carries the invariant from source `sum` (with `n`
iterations remaining) to the end of the table. -/
theorem dpLoop_invariant (S : List Int) (hS : ∀ x ∈ S, 1 ≤ x) (maxSum amount : Int) :
    ∀ (n : Nat) (sum : Int) (st : LoopState), 0 ≤ sum → sum + n = maxSum + 1 →
      Invariant S maxSum amount sum st →
      Invariant S maxSum amount (maxSum + 1) (dpLoop S maxSum amount n sum st) := by
  intro n
  induction n with
  | zero =>
    intro sum st h0 hn hinv
    have hsum : sum = maxSum + 1 := by omega
    exact hsum ▸ hinv
  | succ n ih =>
    intro sum st h0 hn hinv
    exact ih (sum + 1) _ (by omega) (by omega)
      (sumStep_preserves S hS maxSum amount sum h0 (by omega) st hinv)

/-- The initial state satisfies the invariant with no processed sources. -/
theorem invariant_init (S : List Int) (hS : ∀ x ∈ S, 1 ≤ x) (maxSum amount : Int) :
    Invariant S maxSum amount 0 { dp := initDp, bestSum := -1, bestPacks := -1 } := by
  refine ⟨rfl, ?_, ?_, ?_, ?_, Or.inl rfl, ?_⟩
  · intro t
    show -1 ≤ (initDp t).packs
    unfold initDp
    split_ifs <;> simp
  · intro t h0 hpk
    show (initDp t).parent = -1
    unfold initDp
    rw [if_neg h0]
  · intro t h0 hne
    exfalso
    apply hne
    show (initDp t).packs = -1
    unfold initDp
    rw [if_neg h0]
  · intro t n c hrep h0 hW hcond
    rcases hcond with h | ⟨x, hx, hxlt⟩
    · subst h
      have hn := (repWitness_nonneg hS hrep).2.1
      constructor
      · show (initDp 0).packs ≠ -1
        unfold initDp
        rw [if_pos rfl]
        simp
      · show (initDp 0).packs ≤ n
        unfold initDp
        rw [if_pos rfl]
        exact hn
    · exfalso
      have herase := repWitness_erase hx hrep
      have := (repWitness_nonneg hS herase).1
      omega
  · intro t n c hrep hamt hW hcond
    exfalso
    obtain ⟨x, hx, hxlt⟩ := hcond
    have herase := repWitness_erase hx hrep
    have := (repWitness_nonneg hS herase).1
    omega

/-- The invariant at the end of the whole DP phase. -/
theorem runDP_invariant (S : List Int) (hS : ∀ x ∈ S, 1 ≤ x) (maxSum amount : Int)
    (hW : -1 ≤ maxSum) :
    Invariant S maxSum amount (maxSum + 1) (runDP S maxSum amount) := by
  unfold runDP
  exact dpLoop_invariant S hS maxSum amount (maxSum + 1).toNat 0 _ le_rfl (by omega)
    (invariant_init S hS maxSum amount)

/-- Final minimality, stated without the bookkeeping side condition: the
final table stores, at every sum of a combination inside the bounded window,
a reachable pack count at most that combination's size. -/
theorem final_minimal {S : List Int} (hS : ∀ x ∈ S, 1 ≤ x)
    {maxSum amount s : Int} {st : LoopState}
    (hinv : Invariant S maxSum amount s st) (hs : maxSum < s) :
    ∀ t n c, RepWitness S c t n → 0 ≤ t → t ≤ maxSum →
      (st.dp t).packs ≠ -1 ∧ (st.dp t).packs ≤ n := by
  intro t n c hrep h0 hW
  apply hinv.minimal t n c hrep h0 hW
  by_cases ht : t = 0
  · left; exact ht
  · right
    have hcne : c ≠ [] := by
      intro h
      obtain ⟨-, hsum, -⟩ := hrep
      rw [h] at hsum
      simp at hsum
      omega
    obtain ⟨y, hy⟩ := List.exists_mem_of_ne_nil c hcne
    have hy1 : 1 ≤ y := hS y (hrep.1 y hy)
    exact ⟨y, hy, by omega⟩

/-- Final best-candidate minimality: the recorded best terminal is
lexicographically no worse than any combination landing in the window at or
above the amount. -/
theorem final_bestMin {S : List Int} (hS : ∀ x ∈ S, 1 ≤ x)
    {maxSum amount s : Int} {st : LoopState}
    (hinv : Invariant S maxSum amount s st) (hs : maxSum < s) (hamount : 1 ≤ amount) :
    ∀ t n c, RepWitness S c t n → amount ≤ t → t ≤ maxSum →
      st.bestSum ≠ -1 ∧ (st.bestSum < t ∨ (st.bestSum = t ∧ st.bestPacks ≤ n)) := by
  intro t n c hrep hamt hW
  apply hinv.bestMin t n c hrep hamt hW
  have hcne : c ≠ [] := by
    intro h
    obtain ⟨-, hsum, -⟩ := hrep
    rw [h] at hsum
    simp at hsum
    omega
  obtain ⟨y, hy⟩ := List.exists_mem_of_ne_nil c hcne
  have hy1 : 1 ≤ y := hS y (hrep.1 y hy)
  exact ⟨y, hy, by omega⟩

/-! ### Reconstruction correctness -/

theorem reconstructLoop_zero (dp : Int → DpState) (S : List Int) :
    ∀ (fuel : Nat) (b : List (Int × Int)), reconstructLoop dp S fuel 0 b = b := by
  intro fuel b
  cases fuel with
  | zero => rfl
  | succ f =>
    show (if (0 : Int) ≤ 0 then b else _) = b
    rw [if_pos le_rfl]

/-- Unwinding the reconstruction loop along a well-formed parent chain of
length `k` adds exactly `k` packs totalling the starting sum, and only ever
touches keys drawn from `S`. -/
theorem reconstructLoop_spec (S : List Int) (dp : Int → DpState)
    (hzero : dp 0 = ⟨0, -1⟩)
    (hsound : ∀ t, t ≠ 0 → (dp t).packs ≠ -1 →
      1 ≤ (dp t).packs ∧ 1 ≤ t ∧
      ∃ idx : Nat, (dp t).parent = (idx : Int) ∧ idx < S.length ∧
        1 ≤ S.getD idx 0 ∧ S.getD idx 0 ≤ t ∧
        (dp (t - S.getD idx 0)).packs = (dp t).packs - 1) :
    ∀ (k : Nat) (t : Int) (b : List (Int × Int)) (fuel : Nat),
      (dp t).packs = (k : Int) → k ≤ fuel →
      totalPacks (reconstructLoop dp S fuel t b) = totalPacks b + k ∧
      totalItems (reconstructLoop dp S fuel t b) = totalItems b + t ∧
      ∀ p ∈ reconstructLoop dp S fuel t b, (∃ q ∈ b, q.1 = p.1) ∨ p.1 ∈ S := by
  intro k
  induction k with
  | zero =>
    intro t b fuel ht hfuel
    have ht0 : t = 0 := by
      by_contra h0
      have := (hsound t h0 (by rw [ht]; omega)).1
      rw [ht] at this
      omega
    subst ht0
    rw [reconstructLoop_zero]
    refine ⟨by omega, by omega, ?_⟩
    intro p hp
    exact Or.inl ⟨p, hp, rfl⟩
  | succ k ih =>
    intro t b fuel ht hfuel
    have hne : (dp t).packs ≠ -1 := by rw [ht]; omega
    have h0 : t ≠ 0 := by
      intro h
      rw [h, hzero] at ht
      dsimp only at ht
      omega
    obtain ⟨hp1, hpt, idx, hpar, hidx, hg1, hg2, hchain⟩ := hsound t h0 hne
    cases fuel with
    | zero => omega
    | succ f =>
      have hstep : reconstructLoop dp S (f + 1) t b =
          reconstructLoop dp S f (t - S.getD idx 0) (bumpKey b (S.getD idx 0)) := by
        show (if t ≤ 0 then b
              else if (dp t).parent = -1 then b
              else reconstructLoop dp S f (t - S.getD (dp t).parent.toNat 0)
                (bumpKey b (S.getD (dp t).parent.toNat 0))) = _
        rw [if_neg (by omega : ¬ t ≤ 0), hpar,
          if_neg (by omega : ¬ ((idx : Int) = -1)), Int.toNat_natCast]
      rw [hstep]
      have hchain' : (dp (t - S.getD idx 0)).packs = (k : Int) := by
        rw [hchain, ht]
        push_cast
        ring
      obtain ⟨hA, hB, hC⟩ := ih (t - S.getD idx 0) (bumpKey b (S.getD idx 0)) f hchain'
        (by omega)
      refine ⟨?_, ?_, ?_⟩
      · rw [hA, totalPacks_bumpKey]
        push_cast
        ring
      · rw [hB, totalItems_bumpKey]
        ring
      · intro p hp
        rcases hC p hp with ⟨q, hq, hq1⟩ | h
        · rcases mem_bumpKey b (S.getD idx 0) q hq with h' | ⟨r, hr, hr1⟩
          · right
            rw [← hq1, h']
            exact getD_mem hidx
          · left
            exact ⟨r, hr, by rw [hr1, hq1]⟩
        · right
          exact h

/-- Reconstruction from a reachable entry of an invariant-satisfying table:
the breakdown's counts sum to the stored pack count, its weighted total is the
entry's sum, and every key is one of the normalized sizes. -/
theorem reconstructSolution_spec (S : List Int) (hS : ∀ x ∈ S, 1 ≤ x)
    {maxSum amount s : Int} {st : LoopState}
    (hinv : Invariant S maxSum amount s st)
    (t : Int) (h0 : 0 ≤ t) (hne : (st.dp t).packs ≠ -1) :
    totalPacks (reconstructSolution st.dp S t) = (st.dp t).packs ∧
    totalItems (reconstructSolution st.dp S t) = t ∧
    ∀ p ∈ reconstructSolution st.dp S t, p.1 ∈ S := by
  have hlow := hinv.lower t
  have hk : ((st.dp t).packs.toNat : Int) = (st.dp t).packs := by omega
  have hsound' : ∀ u, u ≠ 0 → (st.dp u).packs ≠ -1 →
      1 ≤ (st.dp u).packs ∧ 1 ≤ u ∧
      ∃ idx : Nat, (st.dp u).parent = (idx : Int) ∧ idx < S.length ∧
        1 ≤ S.getD idx 0 ∧ S.getD idx 0 ≤ u ∧
        (st.dp (u - S.getD idx 0)).packs = (st.dp u).packs - 1 := by
    intro u hu0 hune
    obtain ⟨h1, h2, -, idx0, hpar, hidx0, hg1, hg2, -, hchain⟩ := hinv.sound u hu0 hune
    exact ⟨h1, h2, idx0, hpar, hidx0, hg1, hg2, hchain⟩
  have hsound'' : ∀ u, u ≠ 0 → (st.dp u).packs ≠ -1 →
      1 ≤ (st.dp u).packs ∧
      ∃ idx : Nat, (st.dp u).parent = (idx : Int) ∧ idx < S.length ∧
        1 ≤ S.getD idx 0 ∧ S.getD idx 0 ≤ u ∧
        (st.dp (u - S.getD idx 0)).packs = (st.dp u).packs - 1 := by
    intro u hu0 hune
    obtain ⟨h1, -, idx0, hpar, hidx0, hg1, hg2, hchain⟩ := hsound' u hu0 hune
    exact ⟨h1, idx0, hpar, hidx0, hg1, hg2, hchain⟩
  obtain ⟨c, hcrep⟩ := chainRep S st.dp hinv.zero hsound'' (st.dp t).packs.toNat t hk.symm
  have hkt : ((st.dp t).packs.toNat : Int) ≤ t := by
    have := (repWitness_nonneg hS hcrep).2.2
    omega
  obtain ⟨hA, hB, hC⟩ := reconstructLoop_spec S st.dp hinv.zero hsound'
    (st.dp t).packs.toNat t [] (t.toNat + 1) hk.symm (by omega)
  refine ⟨?_, ?_, ?_⟩
  · unfold reconstructSolution
    rw [hA]
    simp only [totalPacks, List.foldl_nil]
    omega
  · unfold reconstructSolution
    rw [hB]
    simp only [totalItems, List.foldl_nil]
    ring
  · intro p hp
    rcases hC p hp with ⟨q, hq, -⟩ | h
    · cases hq
    · exact h

/-! ### Assembly of `Solve` -/

/-- In the general case (validation passed, no exact single-pack match),
`Solve` reduces to the DP phase followed by reconstruction. -/
theorem solve_dp_branch (sizes : List Int) (amount : Int)
    (hval : ValidateSolverInput sizes amount = none)
    (hnotmem : amount ∉ normalizeSizes sizes) :
    Solve sizes amount =
      (if (runDP (normalizeSizes sizes)
            (calculateMaxSum amount (normalizeSizes sizes)) amount).bestSum = -1
       then .error (.noSolution "no solution found")
       else .ok (NewSolution
          (reconstructSolution
            (runDP (normalizeSizes sizes)
              (calculateMaxSum amount (normalizeSizes sizes)) amount).dp
            (normalizeSizes sizes)
            (runDP (normalizeSizes sizes)
              (calculateMaxSum amount (normalizeSizes sizes)) amount).bestSum)
          amount)) := by
  unfold Solve
  rw [hval]
  rw [if_neg (normalizeSizes_ne_nil hval), if_neg hnotmem]

/-- If `Solve` succeeds, validation necessarily passed. -/
theorem solve_ok_validation {sizes : List Int} {amount : Int} {sol : Solution}
    (hok : Solve sizes amount = .ok sol) :
    ValidateSolverInput sizes amount = none := by
  rcases hv : ValidateSolverInput sizes amount with _ | e
  · rfl
  · unfold Solve at hok
    rw [hv] at hok
    cases hok

theorem sum_eq_of_all_eq (a : Int) :
    ∀ c : List Int, (∀ x ∈ c, x = a) → c.sum = a * c.length := by
  intro c
  induction c with
  | nil => simp
  | cons y c ih =>
    intro h
    have hy : y = a := h y (by simp)
    have := ih fun x hx => h x (List.mem_cons_of_mem y hx)
    simp only [List.sum_cons, List.length_cons]
    push_cast
    rw [this, hy]
    ring

/-- Bounds on `calculateMaxSum` for a non-empty sorted size list. -/
theorem calculateMaxSum_cases (amount m : Int) (rest : List Int) :
    calculateMaxSum amount (m :: rest) = amount + m - 1 ∧ amount + m - 1 ≤ 10000000 ∨
    calculateMaxSum amount (m :: rest) = 10000000 ∧ 10000000 < amount + m - 1 := by
  have hcalc : calculateMaxSum amount (m :: rest) =
      if amount + (m - 1) > 10000000 then 10000000 else amount + (m - 1) := rfl
  rw [hcalc]
  by_cases h : amount + (m - 1) > 10000000
  · right
    rw [if_pos h]
    constructor <;> omega
  · left
    rw [if_neg h]
    constructor <;> omega

theorem newSolution_fields (b : List (Int × Int)) (a : Int) :
    (NewSolution b a).breakdown = b ∧ (NewSolution b a).packs = totalPacks b ∧
    (NewSolution b a).overage = (if totalItems b > a then totalItems b - a else 0) ∧
    (NewSolution b a).amount = a :=
  ⟨rfl, rfl, rfl, rfl⟩

/-- Decomposition of a successful DP-branch run of `Solve`. -/
theorem solve_dp_ok_facts {sizes : List Int} {amount : Int} {sol : Solution}
    (hval : ValidateSolverInput sizes amount = none)
    (hnotmem : amount ∉ normalizeSizes sizes)
    (hok : Solve sizes amount = .ok sol) :
    (runDP (normalizeSizes sizes) (calculateMaxSum amount (normalizeSizes sizes))
        amount).bestSum ≠ -1 ∧
    sol = NewSolution
      (reconstructSolution
        (runDP (normalizeSizes sizes) (calculateMaxSum amount (normalizeSizes sizes))
          amount).dp
        (normalizeSizes sizes)
        (runDP (normalizeSizes sizes) (calculateMaxSum amount (normalizeSizes sizes))
          amount).bestSum)
      amount := by
  rw [solve_dp_branch sizes amount hval hnotmem] at hok
  by_cases hbest : (runDP (normalizeSizes sizes)
      (calculateMaxSum amount (normalizeSizes sizes)) amount).bestSum = -1
  · rw [if_pos hbest] at hok
    cases hok
  · rw [if_neg hbest] at hok
    injection hok with h
    exact ⟨hbest, h.symm⟩

/-- All facts about the Solution delivered by the DP branch that the
functional-correctness claims need: totals, recomputability, key provenance,
and lexicographic optimality against every in-window combination. -/
theorem solve_dp_sol_facts {sizes : List Int} {amount : Int} {sol : Solution}
    (hval : ValidateSolverInput sizes amount = none)
    (hnotmem : amount ∉ normalizeSizes sizes)
    (hok : Solve sizes amount = .ok sol) :
    amount ≤ totalItems sol.breakdown ∧
    totalItems sol.breakdown ≤ calculateMaxSum amount (normalizeSizes sizes) ∧
    sol.packs = totalPacks sol.breakdown ∧
    sol.overage = totalItems sol.breakdown - amount ∧
    (∀ p ∈ sol.breakdown, p.1 ∈ normalizeSizes sizes) ∧
    ∀ t n c, RepWitness (normalizeSizes sizes) c t n → amount ≤ t →
      t ≤ calculateMaxSum amount (normalizeSizes sizes) →
      totalItems sol.breakdown < t ∨
        (totalItems sol.breakdown = t ∧ sol.packs ≤ n) := by
  obtain ⟨hbest, hsol⟩ := solve_dp_ok_facts hval hnotmem hok
  have hS := normalizeSizes_pos sizes
  have hamount1 : 1 ≤ amount := by
    rw [validateSolverInput_eq_none] at hval
    omega
  have hW1 : -1 ≤ calculateMaxSum amount (normalizeSizes sizes) := by
    rcases hSeq : normalizeSizes sizes with _ | ⟨m, rest⟩
    · exact absurd hSeq (normalizeSizes_ne_nil hval)
    · have hm : 1 ≤ m := by
        apply hS
        rw [hSeq]
        simp
      rcases calculateMaxSum_cases amount m rest with ⟨he, hb⟩ | ⟨he, hb⟩ <;>
        rw [he] <;> omega
  have hinv := runDP_invariant (normalizeSizes sizes) hS
    (calculateMaxSum amount (normalizeSizes sizes)) amount hW1
  rcases hinv.bestSound with hb | ⟨hba, hbW, hbp1, c0, hc0⟩
  · exact absurd hb hbest
  have hminB := final_minimal hS hinv (by omega)
    (runDP (normalizeSizes sizes) (calculateMaxSum amount (normalizeSizes sizes))
      amount).bestSum
    (runDP (normalizeSizes sizes) (calculateMaxSum amount (normalizeSizes sizes))
      amount).bestPacks c0 hc0 (by omega) hbW
  have hrecon := reconstructSolution_spec (normalizeSizes sizes) hS hinv
    (runDP (normalizeSizes sizes) (calculateMaxSum amount (normalizeSizes sizes))
      amount).bestSum (by omega) hminB.1
  have hbrk : sol.breakdown = reconstructSolution
      (runDP (normalizeSizes sizes) (calculateMaxSum amount (normalizeSizes sizes))
        amount).dp
      (normalizeSizes sizes)
      (runDP (normalizeSizes sizes) (calculateMaxSum amount (normalizeSizes sizes))
        amount).bestSum := by
    rw [hsol]
    exact (newSolution_fields _ _).1
  have hti : totalItems sol.breakdown =
      (runDP (normalizeSizes sizes) (calculateMaxSum amount (normalizeSizes sizes))
        amount).bestSum := by
    rw [hbrk]
    exact hrecon.2.1
  have htp : totalPacks sol.breakdown =
      ((runDP (normalizeSizes sizes) (calculateMaxSum amount (normalizeSizes sizes))
        amount).dp
        (runDP (normalizeSizes sizes) (calculateMaxSum amount (normalizeSizes sizes))
          amount).bestSum).packs := by
    rw [hbrk]
    exact hrecon.1
  have hpk : sol.packs = totalPacks sol.breakdown := by
    rw [hsol, (newSolution_fields _ _).2.1, (newSolution_fields _ _).1]
  have hov : sol.overage = totalItems sol.breakdown - amount := by
    rw [hsol, (newSolution_fields _ _).2.2.1, (newSolution_fields _ _).1, hrecon.2.1]
    split_ifs <;> omega
  refine ⟨by omega, by omega, hpk, hov, ?_, ?_⟩
  · intro p hp
    rw [hbrk] at hp
    exact hrecon.2.2 p hp
  · intro t n c hrep hamt htW
    have hbm := final_bestMin hS hinv (by omega) hamount1 t n c hrep hamt htW
    rcases hbm.2 with h | ⟨h, h'⟩ <;> rcases hminB with ⟨-, hmB⟩ <;> omega

/-! ### Claim C1 — optimality (confirmed) -/

/-- Claim C1: whenever `Solve` returns a Solution for some input, no other
multiset of packs drawn from the given sizes whose total reaches the target
has a strictly lexicographically smaller `(overage, totalPacks)` pair than
the returned Solution. -/
theorem claimC1 (sizes : List Int) (amount : Int) (sol : Solution)
    (hok : Solve sizes amount = .ok sol)
    (c : List Int) (hcmem : ∀ x ∈ c, x ∈ sizes) (hcsum : amount ≤ c.sum) :
    ¬ (c.sum - amount < sol.overage ∨
        (c.sum - amount = sol.overage ∧ (c.length : Int) < sol.packs)) := by
  have hval := solve_ok_validation hok
  have hvfacts := (validateSolverInput_eq_none sizes amount).mp hval
  have hamount1 : 1 ≤ amount := by omega
  have hrepS : RepWitness (normalizeSizes sizes) c c.sum c.length := by
    refine ⟨?_, rfl, rfl⟩
    intro x hx
    exact (mem_normalizeSizes sizes x).mpr ⟨(hvfacts.2.1 x (hcmem x hx)).1, hcmem x hx⟩
  by_cases hmem : amount ∈ normalizeSizes sizes
  · have hmem' : amount ∈ sizes := ((mem_normalizeSizes sizes amount).mp hmem).2
    rw [solve_early_exit sizes amount hval hmem'] at hok
    injection hok with h
    rw [← h]
    intro hcon
    rcases hcon with h1 | ⟨h1, h2⟩
    · dsimp only at h1
      omega
    · dsimp only at h1 h2
      have hc0 : c.length = 0 := by omega
      have hcnil : c = [] := List.length_eq_zero.mp hc0
      rw [hcnil] at hcsum
      simp at hcsum
      omega
  · obtain ⟨hA, hB, -, hov, -, hopt⟩ := solve_dp_sol_facts hval hmem hok
    intro hcon
    by_cases hcW : c.sum ≤ calculateMaxSum amount (normalizeSizes sizes)
    · have := hopt c.sum c.length c hrepS hcsum hcW
      rcases this with h | ⟨h, h'⟩ <;> rcases hcon with h1 | ⟨h1, h2⟩ <;> omega
    · rcases hcon with h1 | ⟨h1, h2⟩ <;> omega

/-- Claim C1 witness: for `sizes = [3,5]`, target 7, the returned solution is
`{5:1, 3:1}` with pair `(1, 2)`, and the concrete combination `[3,5]`
(total 8) is not lexicographically smaller. -/
theorem claimC1_witness :
    Solve [3, 5] 7 = .ok ⟨[(5, 1), (3, 1)], 2, 1, 7⟩ ∧
    ¬ (([3, 5] : List Int).sum - 7 < (1 : Int) ∨
        (([3, 5] : List Int).sum - 7 = (1 : Int) ∧
          ((([3, 5] : List Int).length : Int) < 2))) :=
  ⟨by rfl, claimC1 [3, 5] 7 ⟨[(5, 1), (3, 1)], 2, 1, 7⟩ (by rfl) [3, 5]
    (by decide) (by decide)⟩

/-! ### Claim C2 — the Solution invariant (confirmed) -/

/-- Claim C2: every Solution returned by `Solve` has its breakdown keys among
the input sizes, covers the target, and has `Packs` and `Overage` exactly
recomputable from the breakdown. -/
theorem claimC2 (sizes : List Int) (amount : Int) (sol : Solution)
    (hok : Solve sizes amount = .ok sol) :
    (∀ p ∈ sol.breakdown, p.1 ∈ sizes) ∧
    amount ≤ totalItems sol.breakdown ∧
    sol.packs = totalPacks sol.breakdown ∧
    sol.overage = totalItems sol.breakdown - amount := by
  have hval := solve_ok_validation hok
  by_cases hmem : amount ∈ normalizeSizes sizes
  · have hmem' : amount ∈ sizes := ((mem_normalizeSizes sizes amount).mp hmem).2
    rw [solve_early_exit sizes amount hval hmem'] at hok
    injection hok with h
    rw [← h]
    refine ⟨?_, ?_, ?_, ?_⟩
    · intro p hp
      rcases List.mem_cons.mp hp with h1 | h1
      · rw [h1]
        exact hmem'
      · cases h1
    · show amount ≤ totalItems [(amount, 1)]
      simp [totalItems]
    · show (1 : Int) = totalPacks [(amount, 1)]
      simp [totalPacks]
    · show (0 : Int) = totalItems [(amount, 1)] - amount
      simp [totalItems]
  · obtain ⟨hA, hB, hpk, hov, hkeys, -⟩ := solve_dp_sol_facts hval hmem hok
    refine ⟨?_, hA, hpk, hov⟩
    intro p hp
    exact ((mem_normalizeSizes sizes p.1).mp (hkeys p hp)).2

/-- Claim C2 witness: concrete check at `sizes = [3,5]`, target 7. -/
theorem claimC2_witness :
    Solve [3, 5] 7 = .ok ⟨[(5, 1), (3, 1)], 2, 1, 7⟩ ∧
    ((∀ p ∈ ([(5, 1), (3, 1)] : List (Int × Int)), p.1 ∈ ([3, 5] : List Int)) ∧
      (7 : Int) ≤ totalItems [(5, 1), (3, 1)] ∧
      (2 : Int) = totalPacks [(5, 1), (3, 1)] ∧
      (1 : Int) = totalItems [(5, 1), (3, 1)] - 7) :=
  ⟨by rfl, claimC2 [3, 5] 7 ⟨[(5, 1), (3, 1)], 2, 1, 7⟩ (by rfl)⟩

/-! ### Claim C3 — existence of a Solution (corrected) -/

/-- Claim C3, counterexample: the input `sizes = [3]`, `target = 10,000,000`
passes validation, yet `Solve` returns the "no solution found" error.  The
DP window is clamped at the fixed 10,000,000-cell ceiling, `maxOverage`
becomes 0 there, and no multiple of 3 hits the target exactly, so the claim
that valid inputs never produce this error is false. -/
theorem claimC3_counterexample :
    ValidateSolverInput [3] 10000000 = none ∧
      Solve [3] 10000000 = .error (.noSolution "no solution found") := by
  have hval : ValidateSolverInput [3] 10000000 = none := by decide
  have hnorm : normalizeSizes [3] = [3] := by decide
  have hmem : (10000000 : Int) ∉ normalizeSizes [3] := by decide
  have hW : calculateMaxSum 10000000 (normalizeSizes [3]) = 10000000 := by decide
  refine ⟨hval, ?_⟩
  rw [solve_dp_branch [3] 10000000 hval hmem]
  have hinv := runDP_invariant (normalizeSizes [3]) (normalizeSizes_pos [3])
    (calculateMaxSum 10000000 (normalizeSizes [3])) 10000000 (by rw [hW]; omega)
  rcases hinv.bestSound with hb | ⟨hba, hbW, hbp1, c0, hc0m, hc0s, hc0l⟩
  · rw [if_pos hb]
  · exfalso
    have h3 : ∀ x ∈ c0, x = 3 := by
      intro x hx
      have := hc0m x hx
      rw [hnorm] at this
      simpa using this
    have hsum3 := sum_eq_of_all_eq 3 c0 h3
    omega

/-- Claim C3 (amended): whenever validation passes and the uncapped window
`target + minSize − 1` stays within the 10,000,000-cell ceiling (`minSize`
being the smallest normalized size, the head of the sorted normalized list),
`Solve` returns a Solution.  The original claim fails only when the ceiling
clamps the window. -/
theorem claimC3 (sizes : List Int) (amount : Int)
    (hval : ValidateSolverInput sizes amount = none)
    (hbound : amount + (normalizeSizes sizes).headD 0 - 1 ≤ 10000000) :
    ∃ sol, Solve sizes amount = .ok sol := by
  have hamount1 : 1 ≤ amount := by
    rw [validateSolverInput_eq_none] at hval
    omega
  by_cases hmem : amount ∈ normalizeSizes sizes
  · exact ⟨_, solve_early_exit sizes amount hval
      ((mem_normalizeSizes sizes amount).mp hmem).2⟩
  · rw [solve_dp_branch sizes amount hval hmem]
    rcases hSeq : normalizeSizes sizes with _ | ⟨m, rest⟩
    · exact absurd hSeq (normalizeSizes_ne_nil hval)
    · have hm : 1 ≤ m := by
        apply normalizeSizes_pos sizes
        rw [hSeq]
        simp
      rw [hSeq] at hbound
      simp only [List.headD_cons] at hbound
      have hWeq : calculateMaxSum amount (m :: rest) = amount + m - 1 := by
        rcases calculateMaxSum_cases amount m rest with ⟨he, hb⟩ | ⟨he, hb⟩
        · exact he
        · omega
      -- a multiple of m lands in the window [amount, amount + m − 1]
      have hdiv := Int.ediv_add_emod (amount + m - 1) m
      have hmod0 : 0 ≤ (amount + m - 1) % m := Int.emod_nonneg _ (by omega)
      have hmodm : (amount + m - 1) % m < m := Int.emod_lt_of_pos _ (by omega)
      have hq0 : 0 ≤ (amount + m - 1) / m := Int.ediv_nonneg (by omega) (by omega)
      have hrep : RepWitness (m :: rest)
          (List.replicate ((amount + m - 1) / m).toNat m)
          (m * ((amount + m - 1) / m)) (((amount + m - 1) / m).toNat : Int) := by
        refine ⟨?_, ?_, by rw [List.length_replicate]⟩
        · intro x hx
          rw [List.mem_replicate] at hx
          rw [hx.2]
          simp
        · rw [List.sum_replicate, nsmul_eq_mul, Int.toNat_of_nonneg hq0, mul_comm]
      have hinv := runDP_invariant (m :: rest)
        (by rw [← hSeq]; exact normalizeSizes_pos sizes)
        (calculateMaxSum amount (m :: rest)) amount (by rw [hWeq]; omega)
      have hbm := final_bestMin (by rw [← hSeq]; exact normalizeSizes_pos sizes)
        hinv (by omega) hamount1 (m * ((amount + m - 1) / m))
        (((amount + m - 1) / m).toNat : Int)
        (List.replicate ((amount + m - 1) / m).toNat m) hrep (by omega)
        (by rw [hWeq]; omega)
      rw [if_neg hbm.1]
      exact ⟨_, rfl⟩

/-- Claim C3 witness for the amended statement: `sizes = [3,5]`, target 7 is
within the ceiling and yields a Solution. -/
theorem claimC3_witness :
    ValidateSolverInput [3, 5] 7 = none ∧
    (7 : Int) + (normalizeSizes [3, 5]).headD 0 - 1 ≤ 10000000 ∧
    ∃ sol, Solve [3, 5] 7 = .ok sol :=
  ⟨by decide, by decide, claimC3 [3, 5] 7 (by decide) (by decide)⟩

/-! ### Claim C9 — reconstruction (confirmed) -/

/-- Claim C9: in any table produced by the solver's DP phase, reconstruction
from a sum with a recorded predecessor follows the parent chain (each step
subtracting a positive recorded size, so the loop terminates at 0), and the
resulting breakdown's counts sum to the pack count recorded for the starting
sum. -/
theorem claimC9 (sizes : List Int) (maxSum amount t : Int)
    (hW : -1 ≤ maxSum) (h0 : 0 ≤ t)
    (hpar : ((runDP (normalizeSizes sizes) maxSum amount).dp t).parent ≠ -1) :
    totalPacks (reconstructSolution (runDP (normalizeSizes sizes) maxSum amount).dp
        (normalizeSizes sizes) t) =
      ((runDP (normalizeSizes sizes) maxSum amount).dp t).packs := by
  have hinv := runDP_invariant (normalizeSizes sizes) (normalizeSizes_pos sizes)
    maxSum amount hW
  have hne : ((runDP (normalizeSizes sizes) maxSum amount).dp t).packs ≠ -1 := by
    intro hpk
    by_cases ht0 : t = 0
    · rw [ht0, hinv.zero] at hpar
      simp at hpar
    · exact hpar (hinv.parentNone t ht0 hpk)
  exact (reconstructSolution_spec (normalizeSizes sizes) (normalizeSizes_pos sizes)
    hinv t h0 hne).1

/-- Claim C9 witness: the table for normalized sizes `[2]`, window 3, amount 2
records a predecessor at sum 2, and reconstruction yields exactly the one
recorded pack. -/
theorem claimC9_witness :
    ((runDP (normalizeSizes [2]) 3 2).dp 2).parent ≠ -1 ∧
    totalPacks (reconstructSolution (runDP (normalizeSizes [2]) 3 2).dp
        (normalizeSizes [2]) 2) =
      ((runDP (normalizeSizes [2]) 3 2).dp 2).packs :=
  ⟨by decide, claimC9 [2] 3 2 2 (by decide) (by decide) (by decide)⟩

/-! ### Claim C4 — permutation invariance (confirmed) -/

/-- Claim C4: for a valid duplicate-free sizes list, solving with any
permutation of it and the same target returns a Solution (or error) identical
to the original's — validation accepts the same lists and normalization
produces the same sorted, deduplicated sequence. -/
theorem claimC4 (sizes sizes' : List Int) (amount : Int) (hperm : sizes.Perm sizes')
    (hval : ValidateSolverInput sizes amount = none) :
    Solve sizes' amount = Solve sizes amount := by
  have hval' : ValidateSolverInput sizes' amount = none := by
    rw [validateSolverInput_eq_none] at hval ⊢
    obtain ⟨h1, h2, h3, h4, h5⟩ := hval
    refine ⟨?_, ?_, hperm.nodup_iff.mp h3, h4, h5⟩
    · intro habs
      rw [habs, List.perm_nil] at hperm
      exact h1 hperm
    · intro x hx
      exact h2 x (hperm.mem_iff.mpr hx)
  have hnorm : normalizeSizes sizes' = normalizeSizes sizes :=
    normalizeSizes_perm_eq hperm.symm
  unfold Solve
  rw [hval, hval', hnorm]

/-- Claim C4 witness: `[5,3]` and `[3,5]` with target 7 produce identical
results. -/
theorem claimC4_witness : Solve [5, 3] 7 = Solve [3, 5] 7 :=
  claimC4 [3, 5] [5, 3] 7 (List.Perm.swap 5 3 []) (by decide)

end PackSolver
